import Mathlib

/-!
Verification development for the turkish-tokenizer repository.

The repository ships scripts, tests and examples around a Turkish
morphological tokenizer.  The segmentation / encode / decode core itself is
not part of the source tree given here (only its callers are), so the core
is modelled from the specification document; the comparison harness, the
dictionary-intersection checker, the root+suffix combination checker and
the version manager are translated from the Python sources.

Strings are embedded as `List Char`; Python `dict`s keyed by strings are
embedded as association lists (Python dictionaries preserve insertion
order, which the scripts rely on when taking the first `n` keys).
-/

namespace TurkishTok

/-! ## Data model (spec §3): token kinds, entries, vocabulary -/
/-- Token kind: which dictionary produced a token (spec §3: enum
{ROOT, SUFFIX, BPE, SPECIAL}). -/
inductive TKind where
  | root
  | suffix
  | bpe
  | special
  deriving DecidableEq, Repr

/-- A dictionary entry paired with the kind of the dictionary it came
from: surface text, kind, integer id. -/
structure Entry where
  surface : List Char
  kind : TKind
  id : Nat
  deriving DecidableEq, Repr

/-- Modelled from the spec (§3, §4.1): the vocabulary store.  The three
dictionaries `roots`, `suffixes`, `bpe` map surface strings to ids; the
special tokens (unknown, uppercase marker, pad, bos, eos) and the three
single-character whitespace tokens carry fixed reserved ids.  The
vocabulary-loading code is not in the given source tree, so the store is
modelled as an immutable value. -/
structure Vocab where
  roots : List (List Char × Nat)
  suffixes : List (List Char × Nat)
  bpe : List (List Char × Nat)
  unknownId : Nat
  uppercaseId : Nat
  padId : Nat
  bosId : Nat
  eosId : Nat
  spaceId : Nat
  newlineId : Nat
  tabId : Nat
  deriving DecidableEq, Repr

/-- Surface text of the uppercase-marker special token. -/
def markerSurface : List Char := "<uppercase>".data

/-- Surface text of the reserved unknown special token. -/
def unknownSurface : List Char := "<unknown>".data

/-! ## Case handling

The spec (§4.2 step 1) lower-cases words and records the original casing
with the uppercase-marker token.  The case maps are embedded at the
character-code level. -/
/-- An upper-case letter (character code in `[65, 90]`). -/
def isUp (c : Char) : Bool := 65 ≤ c.toNat && c.toNat ≤ 90

/-- Lower-case a single character. -/
def lowChar (c : Char) : Char :=
  if 65 ≤ c.toNat ∧ c.toNat ≤ 90 then Char.ofNat (c.toNat + 32) else c

/-- Upper-case a single character. -/
def upChar (c : Char) : Char :=
  if 97 ≤ c.toNat ∧ c.toNat ≤ 122 then Char.ofNat (c.toNat - 32) else c

/-! ## Longest-prefix matching (spec §4.2, §9)

At each matching step the segmenter selects, among all dictionary entries
that are a prefix of the remaining unconsumed text, the longest one, ties
between categories broken by the fixed priority root > suffix > bpe. -/
/-- `entryMatches s surf`: the dictionary surface `surf` is a nonempty
prefix of the remaining text `s`. -/
def entryMatches (s surf : List Char) : Bool :=
  !surf.isEmpty && s.take surf.length == surf

/-- All dictionary entries (with their kinds) whose surface is a nonempty
prefix of the remaining text `s`. -/
def dictMatches (v : Vocab) (s : List Char) : List Entry :=
  ((v.roots.filter fun kv => entryMatches s kv.1).map fun kv => ⟨kv.1, .root, kv.2⟩) ++
  ((v.suffixes.filter fun kv => entryMatches s kv.1).map fun kv => ⟨kv.1, .suffix, kv.2⟩) ++
  ((v.bpe.filter fun kv => entryMatches s kv.1).map fun kv => ⟨kv.1, .bpe, kv.2⟩)

/-- Category priority for tie-breaking: root > suffix > bpe (spec §9). -/
def prio : TKind → Nat
  | .root => 3
  | .suffix => 2
  | .bpe => 1
  | .special => 0

/-- `better a b` keeps the better of two candidate matches: the longer
surface wins, length ties go to the higher-priority category, and
otherwise the earlier candidate `a` is kept. -/
def better (a b : Entry) : Entry :=
  if a.surface.length < b.surface.length ∨
     (a.surface.length = b.surface.length ∧ prio a.kind < prio b.kind) then b else a

/-- `dominates a b`: candidate `a` is at least as good as candidate `b`
under the longest-match-then-priority order. -/
def dominates (a b : Entry) : Prop :=
  b.surface.length < a.surface.length ∨
  (b.surface.length = a.surface.length ∧ prio b.kind ≤ prio a.kind)

/-- The selected match: fold `better` over all candidates.  Returns
`none` when no dictionary entry is a prefix of the remaining text. -/
def bestMatch (v : Vocab) (s : List Char) : Option Entry :=
  match dictMatches v s with
  | [] => none
  | e :: es => some (es.foldl better e)

/-! ## Segmenter (spec §4.2)

Modelled from the spec: the segmentation core is not in the given source
tree.  Per whitespace-delimited word, processed left to right: if the
leading remaining character is upper-case, emit the uppercase marker and
continue with the lower-cased form; otherwise take the best
longest-prefix dictionary match, or fall back to the reserved unknown
token for a single character. -/
/-- A produced token: surface text, kind, id. -/
structure Tok where
  surface : List Char
  kind : TKind
  id : Nat
  deriving DecidableEq, Repr

/-- The uppercase-marker token. -/
def markerTok (v : Vocab) : Tok := ⟨markerSurface, .special, v.uppercaseId⟩

/-- The reserved unknown token. -/
def unknownTok (v : Vocab) : Tok := ⟨unknownSurface, .special, v.unknownId⟩

/-- Modelled from the spec (§4.2 steps 1–5): segment one
whitespace-free word, with explicit fuel (each step consumes at least
one character, so `fuel = length` suffices; the fuel only makes the
structural recursion explicit).  At each step the leading character's
case is normalized (emitting the marker token), then the best
longest-prefix dictionary match is consumed; if no dictionary entry
matches, the unknown token is emitted for the single leading
character. -/
def tokenizeWordFuel (v : Vocab) : Nat → List Char → List Tok
  | _, [] => []
  | 0, _ :: _ => []
  | fuel + 1, c :: cs =>
    match bestMatch v ((if isUp c then lowChar c else c) :: cs) with
    | some m =>
      (if isUp c then [markerTok v] else []) ++
        ⟨m.surface, m.kind, m.id⟩ ::
          tokenizeWordFuel v fuel (((if isUp c then lowChar c else c) :: cs).drop m.surface.length)
    | none => (if isUp c then [markerTok v] else []) ++ unknownTok v :: tokenizeWordFuel v fuel cs

/-- Segment one whitespace-free word. -/
def tokenizeWord (v : Vocab) (w : List Char) : List Tok := tokenizeWordFuel v w.length w

/-- The three whitespace characters that delimit words and are emitted
as their own single-character tokens. -/
def isWsChar (c : Char) : Bool := c = ' ' || c = '\n' || c = '\t'

/-- The single-character token for a whitespace character.  In the
vocabulary data the whitespace surfaces live in the root dictionary, so
the token kind is `root` (they must survive special-token stripping for
the round-trip contract). -/
def wsTok (v : Vocab) (c : Char) : Tok :=
  ⟨[c], .root, if c = ' ' then v.spaceId else if c = '\n' then v.newlineId else v.tabId⟩

/-- Modelled from the spec (§4.2): segment a whole text, with explicit
fuel as for `tokenizeWordFuel`.  Whitespace characters become their own
tokens; maximal whitespace-free runs are segmented by
`tokenizeWord`. -/
def tokenizeTextFuel (v : Vocab) : Nat → List Char → List Tok
  | _, [] => []
  | 0, _ :: _ => []
  | fuel + 1, c :: cs =>
    if isWsChar c then wsTok v c :: tokenizeTextFuel v fuel cs
    else
      tokenizeWord v ((c :: cs).takeWhile fun x => !isWsChar x) ++
        tokenizeTextFuel v fuel ((c :: cs).dropWhile fun x => !isWsChar x)

/-- Segment a whole text. -/
def tokenizeText (v : Vocab) (s : List Char) : List Tok := tokenizeTextFuel v s.length s

/-- Modelled from the spec (§4.3): `encode` runs the segmenter, maps
tokens to ids, and optionally wraps the result with the bos/eos ids. -/
def encode (v : Vocab) (text : List Char) (addSpecialTokens : Bool) : List Nat :=
  if addSpecialTokens then
    v.bosId :: (tokenizeText v text).map Tok.id ++ [v.eosId]
  else
    (tokenizeText v text).map Tok.id

/-- Modelled from the spec (§4.3): batch input is processed
independently per text with no cross-text interaction. -/
def encodeBatch (v : Vocab) (texts : List (List Char)) (addSpecialTokens : Bool) :
    List (List Nat) :=
  texts.map fun t => encode v t addSpecialTokens

/-! ## Decoder (spec §4.3) -/
/-- Modelled from the spec (§4.1): reverse id lookup.  Special and
whitespace ids are checked first, then the three dictionaries; an id
outside every valid range yields `none`. -/
def lookupId (v : Vocab) (i : Nat) : Option (List Char × TKind) :=
  if i = v.uppercaseId then some (markerSurface, .special)
  else if i = v.unknownId then some (unknownSurface, .special)
  else if i = v.padId then some ("<pad>".data, .special)
  else if i = v.bosId then some ("<bos>".data, .special)
  else if i = v.eosId then some ("<eos>".data, .special)
  else if i = v.spaceId then some ([' '], .root)
  else if i = v.newlineId then some (['\n'], .root)
  else if i = v.tabId then some (['\t'], .root)
  else
    match v.roots.find? fun kv => kv.2 == i with
    | some kv => some (kv.1, .root)
    | none =>
      match v.suffixes.find? fun kv => kv.2 == i with
      | some kv => some (kv.1, .suffix)
      | none =>
        match v.bpe.find? fun kv => kv.2 == i with
        | some kv => some (kv.1, .bpe)
        | none => none

/-- Look up every id of a sequence; fail with the (modelled)
`InvalidIdError` as soon as one id is outside every valid range. -/
def lookupToks (v : Vocab) : List Nat → Except Unit (List (List Char × TKind × Nat))
  | [] => .ok []
  | i :: is =>
    match lookupId v i with
    | none => .error ()
    | some (s, k) =>
      match lookupToks v is with
      | .error e => .error e
      | .ok ts => .ok ((s, k, i) :: ts)

/-- Re-capitalize the first character when the uppercase flag is set. -/
def capFirst (flag : Bool) (s : List Char) : List Char :=
  if flag then
    match s with
    | [] => []
    | c :: cs => upChar c :: cs
  else s

/-- Modelled from the spec (§4.3): concatenate looked-up surfaces, with
the uppercase marker consumed structurally (it contributes no text and
capitalizes the next emitted token), and special-kind tokens omitted
when `skipSpecialTokens` is set. -/
def decAux (v : Vocab) (skipSpecialTokens : Bool) :
    Bool → List (List Char × TKind × Nat) → List Char
  | _, [] => []
  | flag, (s, k, i) :: ts =>
    if i = v.uppercaseId then decAux v skipSpecialTokens true ts
    else if skipSpecialTokens && k == .special then decAux v skipSpecialTokens flag ts
    else capFirst flag s ++ decAux v skipSpecialTokens false ts

/-- Modelled from the spec (§4.3): `decode` reverses id→surface via the
vocabulary, reconstructs casing from uppercase markers, and surfaces the
`InvalidIdError` of any id outside every valid range. -/
def decode (v : Vocab) (ids : List Nat) (skipSpecialTokens : Bool) :
    Except Unit (List Char) :=
  (lookupToks v ids).map (decAux v skipSpecialTokens false)

/-! ## Well-formedness of a vocabulary value

Spec §3 invariant I2: every id across all tables is globally unique, so
that reverse lookup inverts the forward maps. -/
/-- Reverse lookup inverts every forward entry (dictionaries, unknown
token, whitespace tokens).  This is the shallow form of the spec's
id-uniqueness invariant I2 that `decode` relies on. -/
def WellFormed (v : Vocab) : Prop :=
  (∀ kv ∈ v.roots, lookupId v kv.2 = some (kv.1, .root)) ∧
  (∀ kv ∈ v.suffixes, lookupId v kv.2 = some (kv.1, .suffix)) ∧
  (∀ kv ∈ v.bpe, lookupId v kv.2 = some (kv.1, .bpe)) ∧
  lookupId v v.unknownId = some (unknownSurface, .special) ∧
  lookupId v v.spaceId = some ([' '], .root) ∧
  lookupId v v.newlineId = some (['\n'], .root) ∧
  lookupId v v.tabId = some (['\t'], .root)

instance (v : Vocab) : Decidable (WellFormed v) := by
  unfold WellFormed
  infer_instance

/-- The unknown fallback was never triggered: no produced token is the
reserved unknown token. -/
def noUnknown (v : Vocab) (toks : List Tok) : Prop :=
  ∀ t ∈ toks, t ≠ unknownTok v

instance (v : Vocab) (toks : List Tok) : Decidable (noUnknown v toks) := by
  unfold noUnknown
  infer_instance

/-- The number of input characters a produced token accounts for: the
marker is zero-width, the unknown token replaces exactly one character,
and every other token covers its own surface. -/
def tokWidth (v : Vocab) (t : Tok) : Nat :=
  if t = markerTok v then 0 else if t = unknownTok v then 1 else t.surface.length

/-! ## Decoder step lemmas -/
/-- Forgetting a token into the triple the decoder works on. -/
def tripleOf (t : Tok) : List Char × TKind × Nat := (t.surface, t.kind, t.id)

/-! ## Comparison harness (src/scripts/compare_implementations.py)

`main` runs both implementations on each test case; the Rust side can
fail to produce output (`None`).  Per case it compares the token lists
and the id lists, records any mismatch in `all_match`, and continues
with the remaining cases; at the end it reports success iff
`all_match`. -/
/-- One test case as `main` sees it: the Python tokenizer's token
surfaces and ids, and the Rust implementation's output when it could be
obtained. -/
structure CompCase where
  pyTokens : List (List Char)
  pyIds : List Nat
  rust : Option (List (List Char) × List Nat)

/-- A case passes iff Rust output was obtained and both the token list
and the id list agree with the Python output. -/
def caseMatches (c : CompCase) : Bool :=
  match c.rust with
  | none => false
  | some (rt, ri) => decide (c.pyTokens = rt) && decide (c.pyIds = ri)

/-- The harness loop: fold over all cases, and-ing `all_match` with each
case's outcome and counting the cases processed.  Returns
(`all_match`, number of cases compared). -/
def compareMain (cases : List CompCase) : Bool × Nat :=
  cases.foldl (fun acc c => (acc.1 && caseMatches c, acc.2 + 1)) (true, 0)

/-- Modelled from the spec (§4.4): an implementation conforms when its
segmenter agrees with the specified segmentation on every input. -/
def Conforming (v : Vocab) (f : List Char → List Tok) : Prop :=
  ∀ s, f s = tokenizeText v s

/-! ## Intersection checker (src/tests/check_intersections.py) -/

/-- The key set of a dictionary. -/
def keysOf (d : List (List Char × Nat)) : List (List Char) := d.map Prod.fst

/-- Keys common to two dictionaries (`set(a.keys()) & set(b.keys())`). -/
def interKeys (a b : List (List Char × Nat)) : List (List Char) :=
  (keysOf a).filter fun k => decide (k ∈ keysOf b)

/-- `main` of the intersection checker: compute the three pairwise key
intersections and return exit code 0 iff all are empty, 1 otherwise. -/
def checkIntersectionsMain (v : Vocab) : Nat :=
  if (interKeys v.roots v.suffixes).length + (interKeys v.roots v.bpe).length +
      (interKeys v.suffixes v.bpe).length = 0 then 0 else 1

/-! ## Root+suffix combination checker
(src/tests/check_root_suffix_combinations.py) -/

/-- The script's special-token list. -/
def specialTokensList : List (List Char) :=
  ["<uppercase>".data, "<unknown>".data, [' '], ['\n'], ['\t'], "<pad>".data, "<eos>".data]

/-- Python `k.startswith("special_")`. -/
def startsWithSpecialUnderscore (k : List Char) : Bool :=
  k.take 8 == "special_".data

/-- The script's `root_tokens`: the root dictionary with `special_`-
prefixed keys and the special-token surfaces filtered out. -/
def rootTokens (roots : List (List Char × Nat)) : List (List Char × Nat) :=
  roots.filter fun kv =>
    !startsWithSpecialUnderscore kv.1 && !decide (kv.1 ∈ specialTokensList)

/-- One problematic combination record (`root`, `suffix`,
`combination`, `root_id`, `suffix_id`, `bpe_id`). -/
structure Combo where
  root : List Char
  suffix : List Char
  combination : List Char
  rootId : Nat
  suffixId : Nat
  bpeId : Nat
  deriving DecidableEq, Repr

/-- Python dict lookup on an association list. -/
def assoc (d : List (List Char × Nat)) (k : List Char) : Option Nat :=
  (d.find? fun kv => kv.1 == k).map Prod.snd

/-- `get_problematic_combinations`: iterate the (filtered) roots and
the suffixes — all of them under `full_check`, otherwise the first
`max_roots` resp. `max_suffixes` entries — and record every pair whose
concatenation is a key of the bpe dictionary.  Iterating the
association-list entries directly is the dictionary iteration of the
script (each key is paired with its own id). -/
def getProblematicCombinations (roots suffixes bpe : List (List Char × Nat))
    (fullCheck : Bool) (maxRoots maxSuffixes : Nat) : List Combo :=
  (if fullCheck then rootTokens roots else (rootTokens roots).take maxRoots).flatMap
    fun rkv =>
      (if fullCheck then suffixes else suffixes.take maxSuffixes).filterMap fun skv =>
        (assoc bpe (rkv.1 ++ skv.1)).map fun bid =>
          ⟨rkv.1, skv.1, rkv.1 ++ skv.1, rkv.2, skv.2, bid⟩

/-- The script's `main` outcome on loaded dictionaries: exit code 1 iff
at least one problematic combination was found, 0 otherwise. -/
def checkCombinationsMain (roots suffixes bpe : List (List Char × Nat))
    (fullCheck : Bool) (maxRoots maxSuffixes : Nat) : Nat :=
  if getProblematicCombinations roots suffixes bpe fullCheck maxRoots maxSuffixes = []
  then 0 else 1

/-! ## Spec-modelled load-time integrity (spec §4.1, invariants I1–I3) -/

/-- All ids of the vocabulary (special, whitespace, dictionaries). -/
def allIds (v : Vocab) : List Nat :=
  [v.unknownId, v.uppercaseId, v.padId, v.bosId, v.eosId, v.spaceId, v.newlineId,
    v.tabId] ++ v.roots.map Prod.snd ++ v.suffixes.map Prod.snd ++ v.bpe.map Prod.snd

/-- Modelled from the spec: the loader's integrity check.  The
vocabulary-loading code is not in the given source tree; per spec §4.1
a load succeeds unless I1 (pairwise key disjointness) or I2 (global id
uniqueness) fails — I3 (the unknown token exists) holds structurally
here because the unknown id is a field of the store. -/
def integrityOk (v : Vocab) : Bool :=
  decide (interKeys v.roots v.suffixes = []) && decide (interKeys v.roots v.bpe = []) &&
    decide (interKeys v.suffixes v.bpe = []) && decide (allIds v).Nodup

/-- The special-token and single-character whitespace surfaces named by
the spec (§3). -/
def specialSurfaces : List (List Char) :=
  ["<pad>".data, "<eos>".data, "<unknown>".data, "<uppercase>".data, "<bos>".data,
    "<sep>".data, "<cls>".data, "<mask>".data, [' '], ['\n'], ['\t']]

/-! ## Version manager (src/scripts/version_manager.py) -/

/-- Whitespace stripped by Python `int(string)`. -/
def isPySpace (c : Char) : Bool :=
  c = ' ' || c = '\t' || c = '\n' || c = '\r' || c.toNat = 11 || c.toNat = 12

/-- A decimal digit. -/
def isDigitCh (c : Char) : Bool := 48 ≤ c.toNat && c.toNat ≤ 57

/-- Value of a decimal digit. -/
def digitVal (c : Char) : Nat := c.toNat - 48

/-- Digits of a Python integer literal after the first digit: single
underscores are allowed between digits. -/
def digitsRest (acc : Nat) : List Char → Option Nat
  | [] => some acc
  | c :: cs =>
    if isDigitCh c then digitsRest (acc * 10 + digitVal c) cs
    else if c = '_' then
      match cs with
      | [] => none
      | d :: ds => if isDigitCh d then digitsRest (acc * 10 + digitVal d) ds else none
    else none

/-- Value of a nonempty digit run (with optional inner underscores). -/
def digitsVal : List Char → Option Nat
  | [] => none
  | c :: cs => if isDigitCh c then digitsRest (digitVal c) cs else none

/-- Python `int(string)`: optional surrounding whitespace, an optional
single sign, then decimal digits with single underscores between
digits; anything else raises `ValueError` (here: `none`). -/
def pyIntParse (s : List Char) : Option Int :=
  match ((s.dropWhile isPySpace).reverse.dropWhile isPySpace).reverse with
  | '+' :: rest => (digitsVal rest).map Int.ofNat
  | '-' :: rest => (digitsVal rest).map fun n => -(n : Int)
  | rest => (digitsVal rest).map Int.ofNat

/-- Python `version.split('.')`. -/
def splitOnDot : List Char → List (List Char)
  | [] => [[]]
  | c :: cs =>
    if c = '.' then [] :: splitOnDot cs
    else
      match splitOnDot cs with
      | [] => [[c]]
      | p :: ps => (c :: p) :: ps

/-- `VersionManager.parse_version`: split on dots, require exactly
three components, convert each with `int`; otherwise `ValueError`. -/
def parseVersion (s : List Char) : Except (List Char) (Int × Int × Int) :=
  match splitOnDot s with
  | [a, b, c] =>
    match pyIntParse a with
    | none => .error "invalid literal for int".data
    | some x =>
      match pyIntParse b with
      | none => .error "invalid literal for int".data
      | some y =>
        match pyIntParse c with
        | none => .error "invalid literal for int".data
        | some z => .ok (x, y, z)
  | _ => .error "Invalid version format".data

/-- `VersionManager.format_version`. -/
def formatVersion (major minor patch : Int) : List Char :=
  (toString major).data ++ '.' :: (toString minor).data ++ '.' :: (toString patch).data

/-- `VersionManager.increment_version`: parse, bump the requested
component (resetting the lower ones), reformat; unknown increment types
raise `ValueError`. -/
def incrementVersion (version incrementType : List Char) :
    Except (List Char) (List Char) :=
  match parseVersion version with
  | .error e => .error e
  | .ok (major, minor, patch) =>
    if incrementType = "major".data then .ok (formatVersion (major + 1) 0 0)
    else if incrementType = "minor".data then .ok (formatVersion major (minor + 1) 0)
    else if incrementType = "patch".data then .ok (formatVersion major minor (patch + 1))
    else .error "Invalid increment type".data

/-! ## Concrete vocabularies for witnesses and counterexamples -/

/-- A small concrete vocabulary used to witness universally quantified
theorems at explicit inputs. -/
def sampleVocab : Vocab where
  roots := [("kitap".data, 100), ("ab".data, 102)]
  suffixes := [("lar".data, 200)]
  bpe := [("z".data, 300)]
  unknownId := 1
  uppercaseId := 0
  padId := 2
  bosId := 3
  eosId := 4
  spaceId := 5
  newlineId := 6
  tabId := 7

/-- A vocabulary that passes the spec's load-time integrity checks
while holding a special-token surface as a key of the root
dictionary. -/
def padInRootsVocab : Vocab where
  roots := [("<pad>".data, 100)]
  suffixes := []
  bpe := []
  unknownId := 1
  uppercaseId := 0
  padId := 2
  bosId := 3
  eosId := 4
  spaceId := 5
  newlineId := 6
  tabId := 7

/-! ## Theorems -/

theorem toNat_ofNat_small (n : Nat) (h : n < 0xd800) : (Char.ofNat n).toNat = n := by
  simp [Char.ofNat, Nat.isValidChar, h, Char.ofNatAux, Char.toNat, UInt32.toNat,
    BitVec.toNat_ofNatLt]

/-- Upper-casing undoes lower-casing on an upper-case letter. -/
theorem upChar_lowChar (c : Char) (h : isUp c = true) : upChar (lowChar c) = c := by
  simp only [isUp, Bool.and_eq_true, decide_eq_true_eq] at h
  have hval : c.toNat + 32 < 0xd800 := by omega
  simp only [lowChar, if_pos (And.intro h.1 h.2), upChar,
    toNat_ofNat_small (c.toNat + 32) hval]
  rw [if_pos (by omega)]
  have : c.toNat + 32 - 32 = c.toNat := by omega
  rw [this, Char.ofNat_toNat]

/-- A lower-cased upper-case letter is no longer upper-case. -/
theorem isUp_lowChar (c : Char) (h : isUp c = true) : isUp (lowChar c) = false := by
  simp only [isUp, Bool.and_eq_true, decide_eq_true_eq] at h
  have hval : c.toNat + 32 < 0xd800 := by omega
  simp only [lowChar, if_pos (And.intro h.1 h.2), isUp,
    toNat_ofNat_small (c.toNat + 32) hval]
  simp only [Bool.and_eq_false_iff, decide_eq_false_iff_not]
  omega

theorem dominates_refl (a : Entry) : dominates a a := Or.inr ⟨rfl, Nat.le_refl _⟩

theorem dominates_trans {a b c : Entry} (h1 : dominates a b) (h2 : dominates b c) :
    dominates a c := by
  rcases h1 with h1 | ⟨h1, h1p⟩ <;> rcases h2 with h2 | ⟨h2, h2p⟩
  · exact Or.inl (Nat.lt_trans h2 h1)
  · exact Or.inl (h2 ▸ h1)
  · exact Or.inl (h1 ▸ h2)
  · exact Or.inr ⟨h1 ▸ h2, Nat.le_trans h2p h1p⟩

theorem better_eq_or (a b : Entry) : better a b = a ∨ better a b = b := by
  unfold better
  split <;> simp

theorem dominates_better_left (a b : Entry) : dominates (better a b) a := by
  unfold better
  split
  · next h =>
    rcases h with h | ⟨h, hp⟩
    · exact Or.inl h
    · exact Or.inr ⟨h, Nat.le_of_lt hp⟩
  · exact dominates_refl a

theorem dominates_better_right (a b : Entry) : dominates (better a b) b := by
  unfold better
  split
  · exact dominates_refl b
  · next h =>
    push_neg at h
    rcases Nat.lt_or_ge b.surface.length a.surface.length with hl | hl
    · exact Or.inl hl
    · have heq : a.surface.length = b.surface.length := Nat.le_antisymm hl (h.1)
      exact Or.inr ⟨heq.symm, h.2 heq⟩

/-- Fold `better` over the remaining candidates: the result is one of the
candidates (or the accumulator) and dominates all of them. -/
theorem foldl_better_spec (es : List Entry) (acc : Entry) :
    (es.foldl better acc = acc ∨ es.foldl better acc ∈ es) ∧
    dominates (es.foldl better acc) acc ∧
    ∀ e ∈ es, dominates (es.foldl better acc) e := by
  induction es generalizing acc with
  | nil => exact ⟨Or.inl rfl, dominates_refl acc, fun e he => absurd he (List.not_mem_nil e)⟩
  | cons x xs ih =>
    obtain ⟨hmem, hacc, hall⟩ := ih (better acc x)
    refine ⟨?_, ?_, ?_⟩
    · rcases hmem with h | h
      · rcases better_eq_or acc x with h2 | h2
        · exact Or.inl (by simpa [h2] using h)
        · exact Or.inr (by simp [List.foldl_cons] at h ⊢; rw [h, h2]; exact Or.inl rfl)
      · exact Or.inr (List.mem_cons_of_mem x h)
    · exact dominates_trans hacc (dominates_better_left acc x)
    · intro e he
      rcases List.mem_cons.mp he with rfl | he
      · exact dominates_trans hacc (dominates_better_right acc e)
      · exact hall e he

theorem bestMatch_mem {v : Vocab} {s : List Char} {m : Entry}
    (h : bestMatch v s = some m) : m ∈ dictMatches v s := by
  unfold bestMatch at h
  split at h
  · exact absurd h (by simp)
  · next e es heq =>
    have hm : es.foldl better e = m := by injection h
    obtain ⟨hmem, -, -⟩ := foldl_better_spec es e
    rw [heq]
    rcases hmem with h2 | h2
    · rw [← hm, h2]
      exact List.mem_cons_self e es
    · rw [← hm]
      exact List.mem_cons_of_mem e h2

theorem bestMatch_dominates {v : Vocab} {s : List Char} {m : Entry}
    (h : bestMatch v s = some m) : ∀ e ∈ dictMatches v s, dominates m e := by
  unfold bestMatch at h
  split at h
  · exact absurd h (by simp)
  · next e es heq =>
    have hm : es.foldl better e = m := by injection h
    obtain ⟨-, hacc, hall⟩ := foldl_better_spec es e
    intro x hx
    rw [heq] at hx
    rcases List.mem_cons.mp hx with rfl | hx
    · exact hm ▸ hacc
    · exact hm ▸ hall x hx

theorem bestMatch_isSome {v : Vocab} {s : List Char}
    (h : dictMatches v s ≠ []) : ∃ m, bestMatch v s = some m := by
  unfold bestMatch
  split
  · exact absurd (by assumption) h
  · exact ⟨_, rfl⟩

/-- Entries returned by `dictMatches` have nonempty surfaces that are
prefixes of the remaining text, and their kind is never `special`. -/
theorem dictMatches_sound {v : Vocab} {s : List Char} {e : Entry}
    (h : e ∈ dictMatches v s) :
    e.surface ≠ [] ∧ s.take e.surface.length = e.surface ∧ e.kind ≠ .special := by
  unfold dictMatches at h
  simp only [List.mem_append, List.mem_map, List.mem_filter] at h
  rcases h with ⟨⟨kv, ⟨-, hm⟩, rfl⟩ | ⟨kv, ⟨-, hm⟩, rfl⟩⟩ | ⟨kv, ⟨-, hm⟩, rfl⟩ <;>
    simp only [entryMatches, Bool.and_eq_true, beq_iff_eq, Bool.not_eq_true'] at hm <;>
    exact ⟨fun hnil => by rw [show kv.1 = [] from hnil] at hm; simp at hm, hm.2, by simp⟩

/-! ## Equation lemmas for the segmenter -/
/-- The word segmenter does not depend on the fuel once the fuel covers
the word length. -/
theorem tokenizeWordFuel_eq (v : Vocab) :
    ∀ (f1 f2 : Nat) (w : List Char), w.length ≤ f1 → w.length ≤ f2 →
      tokenizeWordFuel v f1 w = tokenizeWordFuel v f2 w := by
  intro f1
  induction f1 with
  | zero =>
    intro f2 w h1 _
    have hnil : w = [] := List.eq_nil_of_length_eq_zero (Nat.le_zero.mp h1)
    subst hnil
    cases f2 <;> rfl
  | succ n ih =>
    intro f2 w h1 h2
    match w, f2 with
    | [], f2 => cases f2 <;> rfl
    | c :: cs, 0 => simp at h2
    | c :: cs, m2 + 1 =>
      cases hbm : bestMatch v ((if isUp c then lowChar c else c) :: cs) with
      | some e =>
        have hne := (dictMatches_sound (bestMatch_mem hbm)).1
        have hlen1 : 1 ≤ e.surface.length :=
          Nat.one_le_iff_ne_zero.mpr (fun h0 => hne (List.length_eq_zero.mp h0))
        have hd1 : (((if isUp c then lowChar c else c) :: cs).drop e.surface.length).length ≤ n := by
          simp only [List.length_drop, List.length_cons, List.length_cons] at *
          omega
        have hd2 : (((if isUp c then lowChar c else c) :: cs).drop e.surface.length).length ≤ m2 := by
          simp only [List.length_drop, List.length_cons, List.length_cons] at *
          omega
        simp only [tokenizeWordFuel, hbm]
        rw [ih m2 _ hd1 hd2]
      | none =>
        have hc1 : cs.length ≤ n := by simpa using h1
        have hc2 : cs.length ≤ m2 := by simpa using h2
        simp only [tokenizeWordFuel, hbm]
        rw [ih m2 cs hc1 hc2]

theorem tokenizeWord_nil (v : Vocab) : tokenizeWord v [] = [] := rfl

theorem tokenizeWord_some {v : Vocab} {c : Char} {cs : List Char} {m : Entry}
    (h : bestMatch v ((if isUp c then lowChar c else c) :: cs) = some m) :
    tokenizeWord v (c :: cs) =
      (if isUp c then [markerTok v] else []) ++
        ⟨m.surface, m.kind, m.id⟩ ::
          tokenizeWord v (((if isUp c then lowChar c else c) :: cs).drop m.surface.length) := by
  have hne := (dictMatches_sound (bestMatch_mem h)).1
  have hlen1 : 1 ≤ m.surface.length :=
    Nat.one_le_iff_ne_zero.mpr (fun h0 => hne (List.length_eq_zero.mp h0))
  show tokenizeWordFuel v (cs.length + 1) (c :: cs) = _
  simp only [tokenizeWordFuel, h]
  refine congrArg (fun l =>
    (if isUp c then [markerTok v] else []) ++ ⟨m.surface, m.kind, m.id⟩ :: l) ?_
  exact tokenizeWordFuel_eq v cs.length _ _
    (by simp only [List.length_drop, List.length_cons]; omega) (Nat.le_refl _)

theorem tokenizeWord_none {v : Vocab} {c : Char} {cs : List Char}
    (h : bestMatch v ((if isUp c then lowChar c else c) :: cs) = none) :
    tokenizeWord v (c :: cs) =
      (if isUp c then [markerTok v] else []) ++ unknownTok v :: tokenizeWord v cs := by
  show tokenizeWordFuel v (cs.length + 1) (c :: cs) = _
  simp only [tokenizeWordFuel, h]
  rfl

/-- The text segmenter does not depend on the fuel once the fuel covers
the text length. -/
theorem tokenizeTextFuel_eq (v : Vocab) :
    ∀ (f1 f2 : Nat) (s : List Char), s.length ≤ f1 → s.length ≤ f2 →
      tokenizeTextFuel v f1 s = tokenizeTextFuel v f2 s := by
  intro f1
  induction f1 with
  | zero =>
    intro f2 s h1 _
    have hnil : s = [] := List.eq_nil_of_length_eq_zero (Nat.le_zero.mp h1)
    subst hnil
    cases f2 <;> rfl
  | succ n ih =>
    intro f2 s h1 h2
    match s, f2 with
    | [], f2 => cases f2 <;> rfl
    | c :: cs, 0 => simp at h2
    | c :: cs, m2 + 1 =>
      simp only [tokenizeTextFuel]
      by_cases hws : isWsChar c = true
      · rw [if_pos hws, if_pos hws, ih m2 cs (by simpa using h1) (by simpa using h2)]
      · have hwsf : isWsChar c = false := by
          revert hws
          cases isWsChar c <;> simp
        rw [if_neg (by simp [hwsf]), if_neg (by simp [hwsf])]
        have hdw : ((c :: cs).dropWhile fun x => !isWsChar x) =
            cs.dropWhile fun x => !isWsChar x := by
          rw [List.dropWhile_cons, if_pos (by simp [hwsf])]
        have hle : (cs.dropWhile fun x => !isWsChar x).length ≤ cs.length :=
          (List.dropWhile_sublist _).length_le
        have hd1 : ((c :: cs).dropWhile fun x => !isWsChar x).length ≤ n := by
          rw [hdw]
          have : cs.length ≤ n := by simpa using h1
          omega
        have hd2 : ((c :: cs).dropWhile fun x => !isWsChar x).length ≤ m2 := by
          rw [hdw]
          have : cs.length ≤ m2 := by simpa using h2
          omega
        rw [ih m2 _ hd1 hd2]

theorem tokenizeText_nil (v : Vocab) : tokenizeText v [] = [] := rfl

theorem tokenizeText_ws {v : Vocab} {c : Char} {cs : List Char} (h : isWsChar c = true) :
    tokenizeText v (c :: cs) = wsTok v c :: tokenizeText v cs := by
  show tokenizeTextFuel v (cs.length + 1) (c :: cs) = _
  simp only [tokenizeTextFuel]
  rw [if_pos h]
  rfl

theorem tokenizeText_word {v : Vocab} {c : Char} {cs : List Char} (h : isWsChar c = false) :
    tokenizeText v (c :: cs) =
      tokenizeWord v ((c :: cs).takeWhile fun x => !isWsChar x) ++
        tokenizeText v ((c :: cs).dropWhile fun x => !isWsChar x) := by
  show tokenizeTextFuel v (cs.length + 1) (c :: cs) = _
  simp only [tokenizeTextFuel]
  rw [if_neg (by simp [h])]
  refine congrArg (fun l => tokenizeWord v ((c :: cs).takeWhile fun x => !isWsChar x) ++ l) ?_
  have hdw : ((c :: cs).dropWhile fun x => !isWsChar x) =
      cs.dropWhile fun x => !isWsChar x := by
    rw [List.dropWhile_cons, if_pos (by simp [h])]
  have hle : (cs.dropWhile fun x => !isWsChar x).length ≤ cs.length :=
    (List.dropWhile_sublist _).length_le
  exact tokenizeTextFuel_eq v cs.length _ _ (by rw [hdw]; omega) (Nat.le_refl _)

/-! ## Well-formedness consequences -/
theorem lookupId_uppercase (v : Vocab) :
    lookupId v v.uppercaseId = some (markerSurface, .special) := by
  simp [lookupId]

/-- Every selected dictionary match is inverted by reverse lookup. -/
theorem dictMatches_lookup {v : Vocab} (wf : WellFormed v) {s : List Char} {e : Entry}
    (h : e ∈ dictMatches v s) : lookupId v e.id = some (e.surface, e.kind) := by
  unfold dictMatches at h
  simp only [List.mem_append, List.mem_map, List.mem_filter] at h
  rcases h with ⟨⟨kv, ⟨hkv, -⟩, rfl⟩ | ⟨kv, ⟨hkv, -⟩, rfl⟩⟩ | ⟨kv, ⟨hkv, -⟩, rfl⟩
  · exact wf.1 kv hkv
  · exact wf.2.1 kv hkv
  · exact wf.2.2.1 kv hkv

/-- No dictionary entry carries the uppercase-marker id. -/
theorem dict_id_ne_uppercase {v : Vocab} (wf : WellFormed v) {s : List Char} {e : Entry}
    (h : e ∈ dictMatches v s) : e.id ≠ v.uppercaseId := by
  intro heq
  have h1 := dictMatches_lookup wf h
  rw [heq, lookupId_uppercase] at h1
  have hkind := (dictMatches_sound h).2.2
  injection h1 with h1
  exact hkind (congrArg Prod.snd h1).symm

/-- The unknown id differs from the uppercase-marker id. -/
theorem unknown_ne_uppercase {v : Vocab} (wf : WellFormed v) :
    v.unknownId ≠ v.uppercaseId := by
  intro heq
  have h1 := wf.2.2.2.1
  rw [heq, lookupId_uppercase] at h1
  injection h1 with h1
  have : unknownSurface = markerSurface := (congrArg Prod.fst h1).symm
  exact absurd this (by decide)

/-- Reverse lookup of a whitespace token id. -/
theorem ws_lookup {v : Vocab} (wf : WellFormed v) {c : Char} (h : isWsChar c = true) :
    lookupId v (wsTok v c).id = some ([c], .root) := by
  simp only [isWsChar, Bool.or_eq_true, decide_eq_true_eq] at h
  rcases h with (rfl | rfl) | rfl
  · simpa [wsTok] using wf.2.2.2.2.1
  · simpa [wsTok] using wf.2.2.2.2.2.1
  · simpa [wsTok] using wf.2.2.2.2.2.2

/-- A whitespace token id differs from the uppercase-marker id. -/
theorem ws_id_ne_uppercase {v : Vocab} (wf : WellFormed v) {c : Char}
    (h : isWsChar c = true) : (wsTok v c).id ≠ v.uppercaseId := by
  intro heq
  have h1 := ws_lookup wf h
  rw [heq, lookupId_uppercase] at h1
  injection h1 with h1
  have : (TKind.special : TKind) = TKind.root := congrArg Prod.snd h1
  exact absurd this (by decide)

theorem decAux_nil (v : Vocab) (skip flag : Bool) : decAux v skip flag [] = [] := rfl

theorem decAux_marker (v : Vocab) (skip flag : Bool)
    (ts : List (List Char × TKind × Nat)) :
    decAux v skip flag ((markerSurface, TKind.special, v.uppercaseId) :: ts) =
      decAux v skip true ts := by
  rw [decAux, if_pos rfl]

theorem decAux_emit (v : Vocab) (skip flag : Bool) (s : List Char) (k : TKind) (i : Nat)
    (hne : i ≠ v.uppercaseId) (hk : (skip && (k == TKind.special)) = false)
    (ts : List (List Char × TKind × Nat)) :
    decAux v skip flag ((s, k, i) :: ts) = capFirst flag s ++ decAux v skip false ts := by
  rw [decAux, if_neg hne, if_neg (by simp [hk])]

theorem capFirst_false (s : List Char) : capFirst false s = s := by
  simp [capFirst]

theorem capFirst_true_cons (c : Char) (cs : List Char) :
    capFirst true (c :: cs) = upChar c :: cs := by
  simp [capFirst]

/-! ## Word-level round trip -/
/-- Segmenting a word and decoding the produced tokens (with any
continuation) reproduces the word, provided the unknown fallback was
never triggered. -/
theorem decAux_word (v : Vocab) (wf : WellFormed v) :
    ∀ (n : Nat) (w : List Char), w.length ≤ n →
      ∀ ts : List (List Char × TKind × Nat), noUnknown v (tokenizeWord v w) →
      decAux v true false ((tokenizeWord v w).map tripleOf ++ ts) =
        w ++ decAux v true false ts := by
  intro n
  induction n with
  | zero =>
    intro w hw ts _
    have hnil : w = [] := List.eq_nil_of_length_eq_zero (Nat.le_zero.mp hw)
    rw [hnil, tokenizeWord_nil]
    simp
  | succ n ih =>
    intro w hw ts hnu
    match w with
    | [] =>
      rw [tokenizeWord_nil]
      simp
    | c :: cs =>
      cases hbm : bestMatch v ((if isUp c then lowChar c else c) :: cs) with
      | none =>
        exfalso
        have hmem : unknownTok v ∈ tokenizeWord v (c :: cs) := by
          rw [tokenizeWord_none hbm]
          simp
        exact hnu _ hmem rfl
      | some m =>
        obtain ⟨hne, htake, hkind⟩ := dictMatches_sound (bestMatch_mem hbm)
        have hlook := dictMatches_lookup wf (bestMatch_mem hbm)
        have hidne : m.id ≠ v.uppercaseId := dict_id_ne_uppercase wf (bestMatch_mem hbm)
        have hlen1 : 1 ≤ m.surface.length :=
          Nat.one_le_iff_ne_zero.mpr (fun h0 => hne (List.length_eq_zero.mp h0))
        rw [tokenizeWord_some hbm] at hnu ⊢
        have hw' : (c :: cs).length ≤ n + 1 := hw
        have hrec :
            ((((if isUp c then lowChar c else c) :: cs).drop m.surface.length).length ≤ n) := by
          simp only [List.length_drop, List.length_cons] at *
          omega
        have hnuR :
            noUnknown v
              (tokenizeWord v (((if isUp c then lowChar c else c) :: cs).drop m.surface.length)) := by
          intro t ht
          exact hnu t (by simp [ht])
        have ihr := ih _ hrec ts hnuR
        have hsplit :
            m.surface ++ ((if isUp c then lowChar c else c) :: cs).drop m.surface.length =
              (if isUp c then lowChar c else c) :: cs := by
          conv_rhs =>
            rw [← List.take_append_drop m.surface.length
              ((if isUp c then lowChar c else c) :: cs)]
          rw [htake]
        obtain ⟨ds, hds⟩ :
            ∃ ds, m.surface = (if isUp c then lowChar c else c) :: ds := by
          match hms : m.surface with
          | [] => exact absurd hms hne
          | d :: ds =>
            rw [hms] at hsplit
            exact ⟨ds, by injection hsplit with h1 _; rw [h1]⟩
        have hkb : (true && (m.kind == TKind.special)) = false := by
          simp only [Bool.true_and, beq_eq_false_iff_ne, ne_eq]
          exact hkind
        by_cases hup : isUp c = true
        · have hifc : (if isUp c then lowChar c else c) = lowChar c := by simp [hup]
          have hpre : (if isUp c then [markerTok v] else ([] : List Tok)) = [markerTok v] := by
            simp [hup]
          rw [hifc] at hsplit ihr hds
          rw [hifc, hpre]
          simp only [List.singleton_append, List.map_cons, List.cons_append]
          rw [show tripleOf (markerTok v) = (markerSurface, TKind.special, v.uppercaseId) from rfl,
            decAux_marker]
          simp only [List.nil_append, List.map_cons, List.cons_append]
          rw [show tripleOf ⟨m.surface, m.kind, m.id⟩ = (m.surface, m.kind, m.id) from rfl,
            decAux_emit v true true m.surface m.kind m.id hidne hkb, ihr, hds,
            capFirst_true_cons, upChar_lowChar c hup]
          rw [hds] at hsplit
          have htail : ds ++ (lowChar c :: cs).drop (lowChar c :: ds).length = cs := by
            have h2 : lowChar c :: (ds ++ (lowChar c :: cs).drop (lowChar c :: ds).length) =
                lowChar c :: cs := by simpa using hsplit
            injection h2
          conv_rhs => rw [← htail]
          simp
        · have hupf : isUp c = false := by
            revert hup
            cases isUp c <;> simp
          have hifc : (if isUp c then lowChar c else c) = c := by simp [hupf]
          have hpre : (if isUp c then [markerTok v] else ([] : List Tok)) = [] := by
            simp [hupf]
          rw [hifc] at hsplit ihr
          rw [hifc, hpre]
          simp only [List.nil_append, List.map_cons, List.cons_append]
          rw [show tripleOf ⟨m.surface, m.kind, m.id⟩ = (m.surface, m.kind, m.id) from rfl,
            decAux_emit v true false m.surface m.kind m.id hidne hkb, ihr,
            capFirst_false, ← List.append_assoc, hsplit]
          simp

/-! ## Text-level round trip -/
/-- Segmenting a text and decoding the produced tokens (with any
continuation) reproduces the text, provided the unknown fallback was
never triggered. -/
theorem decAux_text (v : Vocab) (wf : WellFormed v) :
    ∀ (n : Nat) (s : List Char), s.length ≤ n →
      ∀ ts : List (List Char × TKind × Nat), noUnknown v (tokenizeText v s) →
      decAux v true false ((tokenizeText v s).map tripleOf ++ ts) =
        s ++ decAux v true false ts := by
  intro n
  induction n with
  | zero =>
    intro s hs ts _
    have hnil : s = [] := List.eq_nil_of_length_eq_zero (Nat.le_zero.mp hs)
    rw [hnil, tokenizeText_nil]
    simp
  | succ n ih =>
    intro s hs ts hnu
    match s with
    | [] =>
      rw [tokenizeText_nil]
      simp
    | c :: cs =>
      by_cases hws : isWsChar c = true
      · rw [tokenizeText_ws hws] at hnu ⊢
        rw [List.map_cons, List.cons_append,
          show tripleOf (wsTok v c) = ([c], TKind.root, (wsTok v c).id) from rfl,
          decAux_emit v true false [c] TKind.root (wsTok v c).id
            (ws_id_ne_uppercase wf hws) (by simp), capFirst_false]
        have ihr := ih cs (by simpa using hs) ts
          (fun t ht => hnu t (List.mem_cons_of_mem _ ht))
        rw [ihr]
        simp
      · have hwsf : isWsChar c = false := by
          revert hws
          cases isWsChar c <;> simp
        rw [tokenizeText_word hwsf] at hnu ⊢
        have hnuW : noUnknown v (tokenizeWord v ((c :: cs).takeWhile fun x => !isWsChar x)) :=
          fun t ht => hnu t (List.mem_append_left _ ht)
        have hnuT : noUnknown v (tokenizeText v ((c :: cs).dropWhile fun x => !isWsChar x)) :=
          fun t ht => hnu t (List.mem_append_right _ ht)
        have hdw : ((c :: cs).dropWhile fun x => !isWsChar x) =
            cs.dropWhile fun x => !isWsChar x := by
          rw [List.dropWhile_cons, if_pos (by simp [hwsf])]
        have hrlen : ((c :: cs).dropWhile fun x => !isWsChar x).length ≤ n := by
          rw [hdw]
          have h1 : (cs.dropWhile fun x => !isWsChar x).length ≤ cs.length :=
            (List.dropWhile_sublist _).length_le
          have h2 : cs.length ≤ n := by simpa using hs
          omega
        have ihr := ih _ hrlen ts hnuT
        rw [List.map_append, List.append_assoc,
          decAux_word v wf ((c :: cs).takeWhile fun x => !isWsChar x).length _
            (Nat.le_refl _) _ hnuW, ihr, ← List.append_assoc,
          List.takeWhile_append_dropWhile]

/-! ## Reverse lookup of every emitted token -/
theorem markerTok_lookup (v : Vocab) :
    lookupId v (markerTok v).id = some ((markerTok v).surface, (markerTok v).kind) :=
  lookupId_uppercase v

theorem tokenizeWord_lookup (v : Vocab) (wf : WellFormed v) :
    ∀ (n : Nat) (w : List Char), w.length ≤ n →
      ∀ t ∈ tokenizeWord v w, lookupId v t.id = some (t.surface, t.kind) := by
  intro n
  induction n with
  | zero =>
    intro w hw t ht
    have hnil : w = [] := List.eq_nil_of_length_eq_zero (Nat.le_zero.mp hw)
    rw [hnil, tokenizeWord_nil] at ht
    exact absurd ht (List.not_mem_nil t)
  | succ n ih =>
    intro w hw t ht
    match w with
    | [] =>
      rw [tokenizeWord_nil] at ht
      exact absurd ht (List.not_mem_nil t)
    | c :: cs =>
      cases hbm : bestMatch v ((if isUp c then lowChar c else c) :: cs) with
      | none =>
        rw [tokenizeWord_none hbm] at ht
        rcases List.mem_append.mp ht with hpre | hrest
        · have hmk : t = markerTok v := by
            revert hpre
            split <;> simp
          rw [hmk]
          exact markerTok_lookup v
        · rcases List.mem_cons.mp hrest with rfl | hcs
          · exact wf.2.2.2.1
          · exact ih cs (by simpa using hw) t hcs
      | some m =>
        rw [tokenizeWord_some hbm] at ht
        have hne := (dictMatches_sound (bestMatch_mem hbm)).1
        have hlen1 : 1 ≤ m.surface.length :=
          Nat.one_le_iff_ne_zero.mpr (fun h0 => hne (List.length_eq_zero.mp h0))
        rcases List.mem_append.mp ht with hpre | hrest
        · have hmk : t = markerTok v := by
            revert hpre
            split <;> simp
          rw [hmk]
          exact markerTok_lookup v
        · rcases List.mem_cons.mp hrest with rfl | hcs
          · exact dictMatches_lookup wf (bestMatch_mem hbm)
          · have hrec :
                ((((if isUp c then lowChar c else c) :: cs).drop m.surface.length).length ≤ n) := by
              simp only [List.length_drop, List.length_cons, List.length_cons] at *
              omega
            exact ih _ hrec t hcs

theorem tokenizeText_lookup (v : Vocab) (wf : WellFormed v) :
    ∀ (n : Nat) (s : List Char), s.length ≤ n →
      ∀ t ∈ tokenizeText v s, lookupId v t.id = some (t.surface, t.kind) := by
  intro n
  induction n with
  | zero =>
    intro s hs t ht
    have hnil : s = [] := List.eq_nil_of_length_eq_zero (Nat.le_zero.mp hs)
    rw [hnil, tokenizeText_nil] at ht
    exact absurd ht (List.not_mem_nil t)
  | succ n ih =>
    intro s hs t ht
    match s with
    | [] =>
      rw [tokenizeText_nil] at ht
      exact absurd ht (List.not_mem_nil t)
    | c :: cs =>
      by_cases hws : isWsChar c = true
      · rw [tokenizeText_ws hws] at ht
        rcases List.mem_cons.mp ht with rfl | hcs
        · exact ws_lookup wf hws
        · exact ih cs (by simpa using hs) t hcs
      · have hwsf : isWsChar c = false := by
          revert hws
          cases isWsChar c <;> simp
        rw [tokenizeText_word hwsf] at ht
        rcases List.mem_append.mp ht with hword | hrest
        · exact tokenizeWord_lookup v wf _ _ (Nat.le_refl _) t hword
        · have hdw : ((c :: cs).dropWhile fun x => !isWsChar x) =
              cs.dropWhile fun x => !isWsChar x := by
            rw [List.dropWhile_cons, if_pos (by simp [hwsf])]
          have hrlen : ((c :: cs).dropWhile fun x => !isWsChar x).length ≤ n := by
            rw [hdw]
            have h1 : (cs.dropWhile fun x => !isWsChar x).length ≤ cs.length :=
              (List.dropWhile_sublist _).length_le
            have h2 : cs.length ≤ n := by simpa using hs
            omega
          exact ih _ hrlen t hrest

/-- When every token's id is inverted by reverse lookup, looking up the
mapped ids succeeds and returns exactly the original triples. -/
theorem lookupToks_ok (v : Vocab) :
    ∀ toks : List Tok, (∀ t ∈ toks, lookupId v t.id = some (t.surface, t.kind)) →
      lookupToks v (toks.map Tok.id) = .ok (toks.map tripleOf) := by
  intro toks
  induction toks with
  | nil => intro _; rfl
  | cons t ts ih =>
    intro h
    rw [List.map_cons, lookupToks, h t (List.mem_cons_self t ts),
      ih (fun x hx => h x (List.mem_cons_of_mem _ hx))]
    rfl

/-! ## Coverage widths -/
theorem tokWidth_marker (v : Vocab) : tokWidth v (markerTok v) = 0 := by
  simp [tokWidth]

theorem unknownTok_ne_markerTok (v : Vocab) : unknownTok v ≠ markerTok v := by
  intro h
  have : unknownSurface = markerSurface := congrArg Tok.surface h
  exact absurd this (by decide)

theorem tokWidth_unknown (v : Vocab) : tokWidth v (unknownTok v) = 1 := by
  rw [tokWidth, if_neg (unknownTok_ne_markerTok v), if_pos rfl]

theorem tokWidth_nonspecial (v : Vocab) (t : Tok) (hk : t.kind ≠ .special) :
    tokWidth v t = t.surface.length := by
  rw [tokWidth, if_neg, if_neg]
  · intro h
    exact hk (by rw [h]; rfl)
  · intro h
    exact hk (by rw [h]; rfl)

theorem width_pre (v : Vocab) (c : Char) :
    (((if isUp c then [markerTok v] else []).map (tokWidth v))).sum = 0 := by
  split <;> simp [tokWidth_marker]

/-- Every token produced from a word accounts for the word's characters
exactly: the widths sum to the word length. -/
theorem width_word (v : Vocab) :
    ∀ (n : Nat) (w : List Char), w.length ≤ n →
      ((tokenizeWord v w).map (tokWidth v)).sum = w.length := by
  intro n
  induction n with
  | zero =>
    intro w hw
    have hnil : w = [] := List.eq_nil_of_length_eq_zero (Nat.le_zero.mp hw)
    rw [hnil, tokenizeWord_nil]
    rfl
  | succ n ih =>
    intro w hw
    match w with
    | [] =>
      rw [tokenizeWord_nil]
      rfl
    | c :: cs =>
      cases hbm : bestMatch v ((if isUp c then lowChar c else c) :: cs) with
      | none =>
        rw [tokenizeWord_none hbm, List.map_append, List.sum_append, List.map_cons,
          List.sum_cons, tokWidth_unknown, ih cs (by simpa using hw), width_pre]
        simp only [List.length_cons]
        omega
      | some m =>
        obtain ⟨hne, htake, hkind⟩ := dictMatches_sound (bestMatch_mem hbm)
        have hlen1 : 1 ≤ m.surface.length :=
          Nat.one_le_iff_ne_zero.mpr (fun h0 => hne (List.length_eq_zero.mp h0))
        have hminl := congrArg List.length htake
        rw [List.length_take, List.length_cons] at hminl
        have hle : m.surface.length ≤ cs.length + 1 := by omega
        have hw2 : cs.length + 1 ≤ n + 1 := by simpa using hw
        have hrec :
            ((((if isUp c then lowChar c else c) :: cs).drop m.surface.length).length ≤ n) := by
          simp only [List.length_drop, List.length_cons]
          omega
        rw [tokenizeWord_some hbm, List.map_append, List.sum_append, List.map_cons,
          List.sum_cons, tokWidth_nonspecial v _ hkind, ih _ hrec, width_pre]
        simp only [List.length_drop, List.length_cons]
        omega

/-- Every token produced from a text accounts for the text's characters
exactly: the widths sum to the text length. -/
theorem width_text (v : Vocab) :
    ∀ (n : Nat) (s : List Char), s.length ≤ n →
      ((tokenizeText v s).map (tokWidth v)).sum = s.length := by
  intro n
  induction n with
  | zero =>
    intro s hs
    have hnil : s = [] := List.eq_nil_of_length_eq_zero (Nat.le_zero.mp hs)
    rw [hnil, tokenizeText_nil]
    rfl
  | succ n ih =>
    intro s hs
    match s with
    | [] =>
      rw [tokenizeText_nil]
      rfl
    | c :: cs =>
      by_cases hws : isWsChar c = true
      · rw [tokenizeText_ws hws, List.map_cons, List.sum_cons,
          tokWidth_nonspecial v _ (by simp [wsTok]), ih cs (by simpa using hs)]
        simp [wsTok]
        omega
      · have hwsf : isWsChar c = false := by
          revert hws
          cases isWsChar c <;> simp
        have hdw : ((c :: cs).dropWhile fun x => !isWsChar x) =
            cs.dropWhile fun x => !isWsChar x := by
          rw [List.dropWhile_cons, if_pos (by simp [hwsf])]
        have hrlen : ((c :: cs).dropWhile fun x => !isWsChar x).length ≤ n := by
          rw [hdw]
          have h1 : (cs.dropWhile fun x => !isWsChar x).length ≤ cs.length :=
            (List.dropWhile_sublist _).length_le
          have h2 : cs.length ≤ n := by simpa using hs
          omega
        have hsum : ((c :: cs).takeWhile fun x => !isWsChar x).length +
            ((c :: cs).dropWhile fun x => !isWsChar x).length = (c :: cs).length := by
          rw [← List.length_append, List.takeWhile_append_dropWhile]
        rw [tokenizeText_word hwsf, List.map_append, List.sum_append,
          width_word v _ _ (Nat.le_refl _), ih _ hrlen, hsum]

/-! ## Error characterization of decode -/
theorem lookupToks_error_iff (v : Vocab) : ∀ ids : List Nat,
    lookupToks v ids = .error () ↔ ∃ i ∈ ids, lookupId v i = none := by
  intro ids
  induction ids with
  | nil =>
    constructor
    · intro h
      exact absurd h (by simp [lookupToks])
    · rintro ⟨i, hi, -⟩
      exact absurd hi (List.not_mem_nil i)
  | cons i is ih =>
    rw [lookupToks]
    cases hl : lookupId v i with
    | none =>
      constructor
      · intro _
        exact ⟨i, List.mem_cons_self i is, hl⟩
      · intro _
        rfl
    | some sk =>
      obtain ⟨s0, k0⟩ := sk
      cases hrec : lookupToks v is with
      | error e =>
        cases e
        constructor
        · intro _
          obtain ⟨j, hj, hjn⟩ := ih.mp hrec
          exact ⟨j, List.mem_cons_of_mem _ hj, hjn⟩
        · intro _
          rfl
      | ok ts =>
        constructor
        · intro h
          exact absurd h (by simp)
        · rintro ⟨j, hj, hjn⟩
          rcases List.mem_cons.mp hj with rfl | hj2
          · rw [hl] at hjn
            exact absurd hjn (by simp)
          · have h2 := ih.mpr ⟨j, hj2, hjn⟩
            rw [h2] at hrec
            exact absurd hrec (by simp)

/-! ## Claim theorems -/

/-- C2: at each matching step the segmenter selects, among all
dictionary entries that are a prefix of the remaining unconsumed text,
the longest one, with length ties between categories broken by the
fixed priority root > suffix > bpe; in particular, among all
root-dictionary entries that prefix-match the remaining string, the
longest one wins whenever a root is selected. -/
theorem bestMatch_longest_priority (v : Vocab) (s : List Char) (m : Entry)
    (h : bestMatch v s = some m) :
    m ∈ dictMatches v s ∧
    (∀ e ∈ dictMatches v s,
      e.surface.length ≤ m.surface.length ∧
      (e.surface.length = m.surface.length → prio e.kind ≤ prio m.kind)) ∧
    (∀ e ∈ dictMatches v s, e.kind = .root → m.kind = .root →
      e.surface.length ≤ m.surface.length) := by
  refine ⟨bestMatch_mem h, fun e he => ?_, fun e he _ _ => ?_⟩
  · rcases bestMatch_dominates h e he with hlt | ⟨heq, hp⟩
    · exact ⟨Nat.le_of_lt hlt, fun hEq => absurd (hEq ▸ hlt) (lt_irrefl _)⟩
    · exact ⟨Nat.le_of_eq heq, fun _ => hp⟩
  · rcases bestMatch_dominates h e he with hlt | ⟨heq, -⟩
    · exact Nat.le_of_lt hlt
    · exact Nat.le_of_eq heq

theorem bestMatch_longest_priority_witness :
    (⟨"kitap".data, TKind.root, 100⟩ : Entry) ∈
        dictMatches sampleVocab "kitaplar".data ∧
    (∀ e ∈ dictMatches sampleVocab "kitaplar".data,
      e.surface.length ≤ ("kitap".data).length ∧
      (e.surface.length = ("kitap".data).length → prio e.kind ≤ prio TKind.root)) ∧
    (∀ e ∈ dictMatches sampleVocab "kitaplar".data, e.kind = .root →
      TKind.root = .root → e.surface.length ≤ ("kitap".data).length) :=
  bestMatch_longest_priority sampleVocab "kitaplar".data
    ⟨"kitap".data, TKind.root, 100⟩ (by decide)

/-- C3: for every text all of whose characters are coverable by the
dictionaries (the unknown fallback is never triggered while segmenting
it), decoding the encoding — without special-token wrapping, skipping
special tokens — reproduces the text exactly, original casing
(reconstructed by consuming uppercase-marker tokens) and whitespace
included. -/
theorem round_trip_exact (v : Vocab) (s : List Char)
    (wf : WellFormed v) (h : noUnknown v (tokenizeText v s)) :
    decode v (encode v s false) true = Except.ok s := by
  have hlk := lookupToks_ok v (tokenizeText v s)
    (tokenizeText_lookup v wf s.length s (Nat.le_refl _))
  have hda := decAux_text v wf s.length s (Nat.le_refl _) [] h
  rw [decAux_nil, List.append_nil, List.append_nil] at hda
  unfold decode
  have he : encode v s false = (tokenizeText v s).map Tok.id := by simp [encode]
  rw [he, hlk]
  simp only [Except.map]
  rw [hda]

theorem round_trip_exact_witness :
    decode sampleVocab (encode sampleVocab "Ab kitap".data false) true =
      Except.ok "Ab kitap".data :=
  round_trip_exact sampleVocab "Ab kitap".data (by decide) (by decide)

/-- C4: encode is total by construction (a total function of the
input); the empty string encodes to the empty id sequence, or to only
the bos/eos wrapper when special tokens are requested; the produced
tokens cover the entire input (their widths sum to the input length);
and a single non-whitespace character matched by no dictionary entry is
segmented as the reserved unknown token. -/
theorem encode_total_coverage (v : Vocab) (s : List Char) (c : Char)
    (hcw : isWsChar c = false)
    (hnm : dictMatches v [if isUp c then lowChar c else c] = []) :
    encode v [] false = [] ∧
    encode v [] true = [v.bosId, v.eosId] ∧
    ((tokenizeText v s).map (tokWidth v)).sum = s.length ∧
    tokenizeText v [c] = (if isUp c then [markerTok v] else []) ++ [unknownTok v] := by
  refine ⟨by simp [encode, tokenizeText_nil], by simp [encode, tokenizeText_nil],
    width_text v s.length s (Nat.le_refl _), ?_⟩
  have hbm : bestMatch v ((if isUp c then lowChar c else c) :: ([] : List Char)) = none := by
    unfold bestMatch
    rw [hnm]
  have ht : (([c] : List Char).takeWhile fun x => !isWsChar x) = [c] := by
    simp [List.takeWhile_cons, hcw]
  have hd : (([c] : List Char).dropWhile fun x => !isWsChar x) = [] := by
    simp [List.dropWhile_cons, hcw]
  rw [tokenizeText_word hcw, ht, hd, tokenizeText_nil, List.append_nil,
    tokenizeWord_none hbm, tokenizeWord_nil]

theorem encode_total_coverage_witness :
    isWsChar 'x' = false ∧
    (encode sampleVocab [] false = [] ∧
      encode sampleVocab [] true = [sampleVocab.bosId, sampleVocab.eosId] ∧
      ((tokenizeText sampleVocab "Ab z".data).map (tokWidth sampleVocab)).sum =
        ("Ab z".data).length ∧
      tokenizeText sampleVocab ['x'] =
        (if isUp 'x' then [markerTok sampleVocab] else []) ++ [unknownTok sampleVocab]) :=
  ⟨by decide, encode_total_coverage sampleVocab "Ab z".data 'x' (by decide) (by decide)⟩

/-- C8: decode fails with the (modelled) InvalidIdError, surfaced to
the caller, exactly when some id of the sequence lies outside every
valid range of the vocabulary; when every id is within a valid range,
decode succeeds. -/
theorem decode_invalid_id (v : Vocab) (ids : List Nat) (skip : Bool) :
    (decode v ids skip = .error () ↔ ∃ i ∈ ids, lookupId v i = none) ∧
    ((∃ r, decode v ids skip = .ok r) ↔ ∀ i ∈ ids, lookupId v i ≠ none) := by
  have herr := lookupToks_error_iff v ids
  constructor
  · unfold decode
    cases hlt : lookupToks v ids with
    | error e =>
      cases e
      constructor
      · intro _
        exact herr.mp hlt
      · intro _
        rfl
    | ok ts =>
      constructor
      · intro h
        exact absurd h (by simp [Except.map])
      · intro hex
        have h2 := herr.mpr hex
        rw [h2] at hlt
        exact absurd hlt (by simp)
  · constructor
    · rintro ⟨r, hr⟩ i hi hnone
      have h2 := herr.mpr ⟨i, hi, hnone⟩
      unfold decode at hr
      rw [h2] at hr
      exact absurd hr (by simp [Except.map])
    · intro hall
      unfold decode
      cases hlt : lookupToks v ids with
      | error e =>
        cases e
        obtain ⟨i, hi, hnone⟩ := herr.mp hlt
        exact absurd hnone (hall i hi)
      | ok ts =>
        exact ⟨decAux v skip false ts, rfl⟩

/-- C9: encoding is a pure function of the vocabulary and the input
string: two runs on the same input yield identical output, and in a
batch the output for a text is the same whatever texts were processed
before or after it (no dependence on call order or prior calls). -/
theorem encode_deterministic (v : Vocab) (s : List Char) (a : Bool) :
    encode v s a = encode v s a ∧
    (∀ pre post : List (List Char),
      (encodeBatch v (pre ++ s :: post) a)[pre.length]? = some (encode v s a)) := by
  refine ⟨rfl, fun pre post => ?_⟩
  unfold encodeBatch
  rw [List.map_append, List.map_cons, List.getElem?_append_right (by simp)]
  simp

/-- The harness fold: the final flag is the conjunction of the per-case
outcomes with the initial flag, and every case is counted. -/
theorem compareMain_foldl : ∀ (cs : List CompCase) (b : Bool) (n : Nat),
    (cs.foldl (fun acc c => (acc.1 && caseMatches c, acc.2 + 1)) (b, n)).1 =
      (b && cs.all caseMatches) ∧
    (cs.foldl (fun acc c => (acc.1 && caseMatches c, acc.2 + 1)) (b, n)).2 =
      n + cs.length := by
  intro cs
  induction cs with
  | nil =>
    intro b n
    simp
  | cons c cs ih =>
    intro b n
    simp only [List.foldl_cons, List.all_cons]
    obtain ⟨h1, h2⟩ := ih (b && caseMatches c) (n + 1)
    constructor
    · rw [h1, Bool.and_assoc]
    · rw [h2, List.length_cons]
      omega

/-- C1: two conforming implementations sharing the same vocabulary
produce identical token-surface sequences and identical id sequences
for every input; the comparison harness reports overall success iff
every test case's token list and id list both match, and a mismatch or
missing Rust output on one case does not stop the remaining cases from
being compared (every case is processed). -/
theorem parity_and_harness (v : Vocab) (f g : List Char → List Tok)
    (hf : Conforming v f) (hg : Conforming v g) :
    (∀ s, (f s).map Tok.surface = (g s).map Tok.surface ∧
      (f s).map Tok.id = (g s).map Tok.id) ∧
    (∀ cases : List CompCase,
      ((compareMain cases).1 = true ↔ ∀ c ∈ cases, caseMatches c = true) ∧
      (compareMain cases).2 = cases.length) := by
  constructor
  · intro s
    rw [hf s, hg s]
    exact ⟨rfl, rfl⟩
  · intro cases
    obtain ⟨h1, h2⟩ := compareMain_foldl cases true 0
    constructor
    · rw [show (compareMain cases).1 =
        (cases.foldl (fun acc c => (acc.1 && caseMatches c, acc.2 + 1)) (true, 0)).1
        from rfl, h1, Bool.true_and]
      exact List.all_eq_true
    · rw [show (compareMain cases).2 =
        (cases.foldl (fun acc c => (acc.1 && caseMatches c, acc.2 + 1)) (true, 0)).2
        from rfl, h2, Nat.zero_add]

theorem parity_and_harness_witness :
    (compareMain [⟨["ab".data], [102], some (["ab".data], [102])⟩]).1 = true ∧
    (compareMain [⟨["ab".data], [102], some (["ab".data], [102])⟩]).2 = 1 :=
  have h := parity_and_harness sampleVocab (tokenizeText sampleVocab)
    (tokenizeText sampleVocab) (fun _ => rfl) (fun _ => rfl)
  ⟨((h.2 [⟨["ab".data], [102], some (["ab".data], [102])⟩]).1).mpr (by decide),
    (h.2 [⟨["ab".data], [102], some (["ab".data], [102])⟩]).2⟩

/-- Characterize emptiness of a pairwise key intersection. -/
theorem interKeys_eq_nil_iff (a b : List (List Char × Nat)) :
    interKeys a b = [] ↔ ∀ k, ¬(k ∈ keysOf a ∧ k ∈ keysOf b) := by
  unfold interKeys
  rw [List.filter_eq_nil]
  constructor
  · intro h k ⟨hka, hkb⟩
    exact absurd (by simpa using hkb) (by simpa using h k hka)
  · intro h k hka
    simp only [decide_eq_true_eq]
    intro hkb
    exact h k ⟨hka, hkb⟩

/-- C5: the intersection checker's main computes the three pairwise key
intersections of the loaded dictionaries and returns exit code 0 iff
the key sets of roots, suffixes and bpe are pairwise disjoint,
returning 1 otherwise. -/
theorem check_intersections_exit (v : Vocab) :
    (checkIntersectionsMain v = 0 ↔
      (∀ k, ¬(k ∈ keysOf v.roots ∧ k ∈ keysOf v.suffixes)) ∧
      (∀ k, ¬(k ∈ keysOf v.roots ∧ k ∈ keysOf v.bpe)) ∧
      (∀ k, ¬(k ∈ keysOf v.suffixes ∧ k ∈ keysOf v.bpe))) ∧
    (checkIntersectionsMain v = 0 ∨ checkIntersectionsMain v = 1) := by
  constructor
  · unfold checkIntersectionsMain
    split
    · next hz =>
      have h1 : interKeys v.roots v.suffixes = [] :=
        List.eq_nil_of_length_eq_zero (by omega)
      have h2 : interKeys v.roots v.bpe = [] :=
        List.eq_nil_of_length_eq_zero (by omega)
      have h3 : interKeys v.suffixes v.bpe = [] :=
        List.eq_nil_of_length_eq_zero (by omega)
      simp only [true_iff]
      exact ⟨(interKeys_eq_nil_iff _ _).mp h1, (interKeys_eq_nil_iff _ _).mp h2,
        (interKeys_eq_nil_iff _ _).mp h3⟩
    · next hz =>
      constructor
      · intro h
        exact absurd h (by simp)
      · rintro ⟨d1, d2, d3⟩
        exact absurd (by
          rw [(interKeys_eq_nil_iff _ _).mpr d1, (interKeys_eq_nil_iff _ _).mpr d2,
            (interKeys_eq_nil_iff _ _).mpr d3]
          rfl) hz
  · unfold checkIntersectionsMain
    split
    · exact Or.inl rfl
    · exact Or.inr rfl

/-- C6 counterexample: a vocabulary that passes the spec's load-time
integrity checks (I1 key disjointness, I2 id uniqueness) while holding
the special surface `"<pad>"` as a key of the root dictionary — so a
loaded vocabulary can hold special surfaces as root keys, refuting the
claim as stated. -/
theorem special_surface_in_roots_loadable :
    integrityOk padInRootsVocab = true ∧
    "<pad>".data ∈ specialSurfaces ∧
    "<pad>".data ∈ keysOf padInRootsVocab.roots := by
  refine ⟨by decide, by decide, by decide⟩

/-- C6 amended: special-token and single-character whitespace surfaces
may occur as keys of the root dictionary of a loaded vocabulary; the
combination checker establishes the separation itself, by filtering
exactly the surfaces of its special-token list and every key starting
with `special_` out of the roots before using them. -/
theorem root_filter_excludes_specials (roots : List (List Char × Nat)) (k : List Char) :
    k ∈ keysOf (rootTokens roots) ↔
      k ∈ keysOf roots ∧ startsWithSpecialUnderscore k = false ∧
        k ∉ specialTokensList := by
  unfold keysOf rootTokens
  simp only [List.mem_map, List.mem_filter]
  constructor
  · rintro ⟨kv, ⟨hkv, hf⟩, rfl⟩
    simp only [Bool.and_eq_true, Bool.not_eq_true'] at hf
    exact ⟨⟨kv, hkv, rfl⟩, hf.1, by simpa using hf.2⟩
  · rintro ⟨⟨kv, hkv, rfl⟩, hs, hns⟩
    exact ⟨kv, ⟨hkv, by simp [hs, hns]⟩, rfl⟩

/-- C7: the combination checker returns exactly the combination records
drawn from the special-token-filtered roots and the suffixes — all
entries under full_check, otherwise the first max_roots
resp. max_suffixes entries — whose concatenation is a key of the bpe
dictionary; and its main exits 1 iff at least one combination was
found, 0 otherwise. -/
theorem combinations_spec (roots suffixes bpe : List (List Char × Nat))
    (fullCheck : Bool) (maxRoots maxSuffixes : Nat) (cb : Combo) :
    (cb ∈ getProblematicCombinations roots suffixes bpe fullCheck maxRoots maxSuffixes ↔
      ((cb.root, cb.rootId) ∈
          (if fullCheck then rootTokens roots else (rootTokens roots).take maxRoots) ∧
        (cb.suffix, cb.suffixId) ∈
          (if fullCheck then suffixes else suffixes.take maxSuffixes) ∧
        cb.combination = cb.root ++ cb.suffix ∧
        assoc bpe (cb.root ++ cb.suffix) = some cb.bpeId)) ∧
    (checkCombinationsMain roots suffixes bpe fullCheck maxRoots maxSuffixes = 1 ↔
      getProblematicCombinations roots suffixes bpe fullCheck maxRoots maxSuffixes ≠ []) ∧
    (checkCombinationsMain roots suffixes bpe fullCheck maxRoots maxSuffixes = 0 ↔
      getProblematicCombinations roots suffixes bpe fullCheck maxRoots maxSuffixes = []) := by
  refine ⟨?_, ?_, ?_⟩
  · unfold getProblematicCombinations
    rw [List.mem_flatMap]
    constructor
    · rintro ⟨rkv, hrkv, hmem⟩
      rw [List.mem_filterMap] at hmem
      obtain ⟨skv, hskv, hmk⟩ := hmem
      rw [Option.map_eq_some'] at hmk
      obtain ⟨bid, hbid, hco⟩ := hmk
      cases cb
      injection hco with e1 e2 e3 e4 e5 e6
      subst e1
      subst e2
      subst e3
      subst e4
      subst e5
      subst e6
      exact ⟨hrkv, hskv, rfl, hbid⟩
    · rintro ⟨hr, hs, hc, hb⟩
      refine ⟨(cb.root, cb.rootId), hr, ?_⟩
      rw [List.mem_filterMap]
      refine ⟨(cb.suffix, cb.suffixId), hs, ?_⟩
      rw [Option.map_eq_some']
      refine ⟨cb.bpeId, hb, ?_⟩
      cases cb
      simp only at hc
      rw [hc]
  · unfold checkCombinationsMain
    split
    · next hempty =>
      constructor
      · intro h
        exact absurd h (by simp)
      · intro h
        exact absurd hempty h
    · next hne =>
      exact ⟨fun _ => hne, fun _ => rfl⟩
  · unfold checkCombinationsMain
    split
    · next hempty =>
      exact ⟨fun _ => hempty, fun _ => rfl⟩
    · next hne =>
      constructor
      · intro h
        exact absurd h (by simp)
      · intro h
        exact absurd h hne

/-- `parse_version` fails exactly when the dot-split does not have
three components or some component is not a Python integer literal. -/
theorem parseVersion_error_iff (s : List Char) :
    (∃ e, parseVersion s = .error e) ↔
      ¬((splitOnDot s).length = 3 ∧ ∀ p ∈ splitOnDot s, (pyIntParse p).isSome) := by
  rcases hsp : splitOnDot s with - | ⟨a, - | ⟨b, - | ⟨c, - | ⟨d, rest⟩⟩⟩⟩
  · have hpv : parseVersion s = .error "Invalid version format".data := by
      simp only [parseVersion, hsp]
    constructor
    · intro _
      rintro ⟨h3, -⟩
      exact absurd h3 (by simp)
    · intro _
      exact ⟨_, hpv⟩
  · have hpv : parseVersion s = .error "Invalid version format".data := by
      simp only [parseVersion, hsp]
    constructor
    · intro _
      rintro ⟨h3, -⟩
      exact absurd h3 (by simp)
    · intro _
      exact ⟨_, hpv⟩
  · have hpv : parseVersion s = .error "Invalid version format".data := by
      simp only [parseVersion, hsp]
    constructor
    · intro _
      rintro ⟨h3, -⟩
      exact absurd h3 (by simp)
    · intro _
      exact ⟨_, hpv⟩
  · cases hpa : pyIntParse a with
    | none =>
      have hpv : parseVersion s = .error "invalid literal for int".data := by
        simp only [parseVersion, hsp, hpa]
      constructor
      · intro _
        rintro ⟨-, hall⟩
        have h2 := hall a (List.mem_cons_self _ _)
        rw [hpa] at h2
        exact absurd h2 (by simp)
      · intro _
        exact ⟨_, hpv⟩
    | some x =>
      cases hpb : pyIntParse b with
      | none =>
        have hpv : parseVersion s = .error "invalid literal for int".data := by
          simp only [parseVersion, hsp, hpa, hpb]
        constructor
        · intro _
          rintro ⟨-, hall⟩
          have h2 := hall b (by simp)
          rw [hpb] at h2
          exact absurd h2 (by simp)
        · intro _
          exact ⟨_, hpv⟩
      | some y =>
        cases hpc : pyIntParse c with
        | none =>
          have hpv : parseVersion s = .error "invalid literal for int".data := by
            simp only [parseVersion, hsp, hpa, hpb, hpc]
          constructor
          · intro _
            rintro ⟨-, hall⟩
            have h2 := hall c (by simp)
            rw [hpc] at h2
            exact absurd h2 (by simp)
          · intro _
            exact ⟨_, hpv⟩
        | some z =>
          have hpv : parseVersion s = .ok (x, y, z) := by
            simp only [parseVersion, hsp, hpa, hpb, hpc]
          constructor
          · rintro ⟨e, he⟩
            rw [hpv] at he
            exact absurd he (by simp)
          · intro hneg
            exfalso
            apply hneg
            refine ⟨rfl, ?_⟩
            intro p hp
            simp only [List.mem_cons, List.not_mem_nil, or_false] at hp
            rcases hp with rfl | rfl | rfl
            · rw [hpa]
              rfl
            · rw [hpb]
              rfl
            · rw [hpc]
              rfl
  · have hpv : parseVersion s = .error "Invalid version format".data := by
      simp only [parseVersion, hsp]
    constructor
    · intro _
      rintro ⟨h3, -⟩
      simp only [List.length_cons] at h3
      omega
    · intro _
      exact ⟨_, hpv⟩

/-- C10: for a version string of exactly three dot-separated integer
components M.m.p, increment_version returns (M+1).0.0 for major,
M.(m+1).0 for minor, and M.m.(p+1) for patch; for any version string
not of that three-part integer form, parse_version — and hence
increment_version — fails with ValueError; and increment_version fails
for any increment type other than major, minor, patch. -/
theorem version_manager_spec (s t a b c : List Char) (x y z : Int) :
    (splitOnDot s = [a, b, c] → pyIntParse a = some x → pyIntParse b = some y →
      pyIntParse c = some z →
      parseVersion s = .ok (x, y, z) ∧
      incrementVersion s "major".data = .ok (formatVersion (x + 1) 0 0) ∧
      incrementVersion s "minor".data = .ok (formatVersion x (y + 1) 0) ∧
      incrementVersion s "patch".data = .ok (formatVersion x y (z + 1)) ∧
      (t ≠ "major".data → t ≠ "minor".data → t ≠ "patch".data →
        incrementVersion s t = .error "Invalid increment type".data)) ∧
    ((∃ e, parseVersion s = .error e) ↔
      ¬((splitOnDot s).length = 3 ∧ ∀ p ∈ splitOnDot s, (pyIntParse p).isSome)) ∧
    (∀ e, parseVersion s = .error e → incrementVersion s t = .error e) := by
  refine ⟨?_, parseVersion_error_iff s, ?_⟩
  · intro hsp hpa hpb hpc
    have hpv : parseVersion s = .ok (x, y, z) := by
      simp only [parseVersion, hsp, hpa, hpb, hpc]
    refine ⟨hpv, ?_, ?_, ?_, ?_⟩
    · simp [incrementVersion, hpv]
    · simp [incrementVersion, hpv]
    · simp [incrementVersion, hpv]
    · intro h1 h2 h3
      simp only [incrementVersion, hpv]
      rw [if_neg h1, if_neg h2, if_neg h3]
  · intro e he
    simp only [incrementVersion, he]

theorem version_manager_spec_witness :
    parseVersion "1.2.3".data = .ok (1, 2, 3) ∧
    incrementVersion "1.2.3".data "major".data = .ok (formatVersion (1 + 1) 0 0) ∧
    incrementVersion "1.2.3".data "minor".data = .ok (formatVersion 1 (2 + 1) 0) ∧
    incrementVersion "1.2.3".data "patch".data = .ok (formatVersion 1 2 (3 + 1)) ∧
    incrementVersion "1.2.3".data "bogus".data = .error "Invalid increment type".data :=
  have h := (version_manager_spec "1.2.3".data "bogus".data ['1'] ['2'] ['3'] 1 2 3).1
    (by decide) (by decide) (by decide) (by decide)
  ⟨h.1, h.2.1, h.2.2.1, h.2.2.2.1, h.2.2.2.2 (by decide) (by decide) (by decide)⟩

end TurkishTok
